import Mathlib

/-!
Verification of the svelte-vs-vue comparison page.

The page (`src/routes/+page.svelte`) holds a static content model
(`sections`), normalizes every embedded text literal with `dedent`, and
composes a side-by-side rendering per section: a markdown description, the
Svelte code highlighted with the Svelte grammar, the Vue code highlighted by
auto-detection, and one optional notes slot per variant.

The `dedent` implementation itself is an external package whose sources are
not part of the repository; it is modelled here from the spec's algorithm
(split into lines, strip the common leading whitespace of the non-blank
lines, drop a single leading and a single trailing blank line).
-/

/-- A character counts as indentation whitespace when it is a space or a tab
(literal whitespace comparison, no tab expansion). -/
def isWsChar (c : Char) : Bool := c == ' ' || c == '\t'

/-- A line is blank when it consists entirely of whitespace. -/
def isBlank (l : List Char) : Bool := l.all isWsChar

/-- Length of a line's leading whitespace. -/
def leadingWs (l : List Char) : Nat := (l.takeWhile isWsChar).length

/-- Split a text into lines at newline characters, preserving empty lines,
mirroring JavaScript's `split("\n")` (so the empty text has one empty line). -/
def splitLines : List Char → List (List Char)
  | [] => [[]]
  | c :: cs =>
    if c = '\n' then [] :: splitLines cs
    else
      match splitLines cs with
      | [] => [[c]]
      | l :: ls => (c :: l) :: ls

/-- Join lines with newline separators (inverse of `splitLines` on nonempty
newline-free line lists). -/
def joinLines : List (List Char) → List Char
  | [] => []
  | [l] => l
  | l :: ls => l ++ '\n' :: joinLines ls

/-- Merge of two optional minima. -/
def mergeMin : Option Nat → Option Nat → Option Nat
  | none, b => b
  | some m, none => some m
  | some m, some k => some (min m k)

/-- Minimum leading-whitespace length over the lines that are not entirely
whitespace; `none` when no such line exists. -/
def minIndentOpt : List (List Char) → Option Nat
  | [] => none
  | l :: ls =>
    mergeMin (if isBlank l then none else some (leadingWs l)) (minIndentOpt ls)

/-- Modelled from the spec: the common indentation to strip — the minimum
leading-whitespace length over all not-entirely-whitespace lines, zero when
no such line exists. -/
def minIndent (ls : List (List Char)) : Nat := (minIndentOpt ls).getD 0

/-- Remove a single leading blank line if present. -/
def dropLeadBlank : List (List Char) → List (List Char)
  | [] => []
  | l :: ls => if isBlank l then ls else l :: ls

/-- Remove a single trailing blank line if present. -/
def dropTrailBlank : List (List Char) → List (List Char)
  | [] => []
  | [l] => if isBlank l then [] else [l]
  | l :: l2 :: ls => l :: dropTrailBlank (l2 :: ls)

/-- No two consecutive blank lines at the start of the line list. -/
def noTwoLeadBlank : List (List Char) → Bool
  | a :: b :: _ => !(isBlank a && isBlank b)
  | _ => true

/-- No two consecutive blank lines at the end of the line list. -/
def noTwoTrailBlank : List (List Char) → Bool
  | [a, b] => !(isBlank a && isBlank b)
  | _ :: b :: rest => noTwoTrailBlank (b :: rest)
  | _ => true

/-- Modelled from the spec: the line list after splitting and stripping the
common indentation (steps 1–3 of the normalizer), before boundary blank-line
trimming. -/
def dedentLines (s : List Char) : List (List Char) :=
  (splitLines s).map (fun l => l.drop (minIndent (splitLines s)))

/-- Modelled from the spec: the indentation normalizer applied to every
literal before render (the page's `dedent`, an external package absent from
the sources): split into lines, strip the common indentation of the
non-blank lines, remove a single leading and a single trailing blank line,
and join back. -/
def dedent (s : List Char) : List Char :=
  joinLines (dropTrailBlank (dropLeadBlank (dedentLines s)))

/-- `dedent` on strings. -/
def dedentStr (s : String) : String := ⟨dedent s.data⟩

/-- One framework variant inside a comparison entry: a code fragment and
markdown notes.  Every entry of the page's `sections` array supplies both
fields, so `notes` is a plain string; the template's conditional tests its
truthiness (non-emptiness). -/
structure Variant where
  code : String
  notes : String
  deriving DecidableEq

/-- One comparison entry of the content model: a title, a markdown
description, and the two framework variants. -/
structure Entry where
  title : String
  description : String
  svelte : Variant
  vue : Variant
  deriving DecidableEq

/-- Section 1 of the content model, transcribed verbatim. -/
def entry1 : Entry where
  title := "Hello World (Counter)"
  description := "\n        Buttons that increment a counter and displays the count. Showcases basic reactive state and event handling.\n      "
  svelte := ⟨"\n          <script>\n            const count = $state(0)\n\n            function increment() \x7b\n              count += 1\n            \x7d\n          </script>\n\n          <button onclick=\x7bincrement\x7d>\n            Increment with function \x7bcount\x7d\n          </button>\n          <button onclick=\x7b() => count += 1\x7d>\n            Increment with inline handler \x7bcount\x7d\n          </button>\n        ",
    "\n          - uses browser-native event names:  `onclick=`\n          - always uses the variable name directly (no `.value` needed)\n        "⟩
  vue := ⟨"\n          <script setup>\n            import \x7bref\x7d from \x22vue\x22\n\n            const count = ref(0)\n\n            function increment() \x7b\n              count.value += 1  // NOTICE: .value needed in script\n            \x7d\n          </script>\n\n          <template>\n            <button @click=\x22increment\x22>\n              Increment with function \x7b\x7b count \x7d\x7d\n            </button>\n            <button @click=\x22count += 1\x22> <!-- NOTICE: no .value -->\n              Increment with inline handler \x7b\x7b count \x7d\x7d\n            </button>\n          </template>\n        ",
    "\n          - uses special syntax for event bindings: `@click=`\n          - use `.value` in script, don\x27t use it in template. **big gotcha**\n        "⟩

/-- Section 2 of the content model, transcribed verbatim. -/
def entry2 : Entry where
  title := "Input Binding"
  description := "Synchronizing state with an input\x27s value. Not much to say here, just a matter of taste."
  svelte := ⟨"\n          <script>\n            let name = $state(\x27Dmitry\x27)\n            let checked = $state(true)\n          </script>\n\n          <!-- bind:value for input, textarea, select, etc -->\n          <input type=\x22text\x22 bind:value=\x7bname\x7d />\n\n          <!-- checkboxes use bind:checked -->\n          <input type=\x22checkbox\x22 bind:checked=\x7bchecked\x7d />\n        ",
    "- `bind:` syntax"⟩
  vue := ⟨"\n          <script setup>\n            import \x7bref\x7d from \x22vue\x22\n\n            let name = ref(\x27Dmitry\x27)\n            let checked = ref(false)\n          </script>\n\n          <template>\n            <input type=\x22text\x22 v-model=\x22name\x22>\n            <input type=\x22checkbox\x22 v-model=\x22checked\x22>\n\n            <!-- long form: -->\n            <input type=\x22text\x22 :value=\x22name\x22 @input=\x22event => name = event.target.value\x22>\n            <input type=\x22checkbox\x22 :value=\x22checked\x22 @input=\x22event => checked = event.target.value\x22>\n          </template>\n        ",
    "\n          - v-model attribute (personally not a fan)\n        "⟩

/-- Section 3 of the content model, transcribed verbatim. -/
def entry3 : Entry where
  title := "Control Flow"
  description := "Ifs and loops"
  svelte := ⟨"\n          <!-- if statement -->\n          \x7b#if condition\x7d\n            <p>it\x27s true</p>\n          \x7b:else if otherCondition\x7d\n            <p>it\x27s something else</p>\n          \x7b:else\x7d\n            <p>it\x27s nothing</p>\n          \x7b/if\x7d\n\n          <!-- each loop -->\n          \x7b#each items as item\x7d\n            <p>\x7bitem\x7d</p>\n          \x7b:else\x7d\n            <p>there are no items</p>\n          \x7b/each\x7d\n        ",
    "\n          - special syntax for control flow\n          - small learning curve but at least it\x27s consistent: # to start, : in the middle, / to end\n          - control flow can\x27t get lost visually - it\x27s always clear\n        "⟩
  vue := ⟨"\n          <!-- if statement -->\n          <p v-if=\x22condition\x22>it\x27s true</p>\n          <p v-else-if=\x22otherCondition\x22>it\x27s something else</p>\n          <p v-else=\x22otherCondition\x22>it\x27s nothing</p>\n\n          <!-- for loop -->\n          <p v-for=\x22item in items\x22>\x7b\x7b item \x7d\x7d</p>\n\n          <!-- empty check. there is no \x22else\x22 so have to wrap in v-if -->\n          <div v-if=\x22items.length > 0\x22>\n            <p v-for=\x22item in items\x22>\x7b\x7b item \x7d\x7d</p>\n          </div>\n          <div v-else>\n            <p>there are no items</p>\n          </div>\n        ",
    "\n          - special attributes v-if, v-for, etc\n          - control flow can get lost in a sea of other attributes on the same element\n        "⟩

/-- Section 4 of the content model, transcribed verbatim. -/
def entry4 : Entry where
  title := "Deep State Reactivity / Object Mutability"
  description := "Reactivity with objects (or arrays)"
  svelte := ⟨"\n          <script>\n            let item = $state(\x7bid: 1, name: \x22foo\x22\x7d)\n            item.name = \x22bar\x22;\n          </script>\n\n          <p>\x7bitem.id\x7d: \x7bitem.name\x7d</p>\n        ",
    "- $state is used for both primives and objects"⟩
  vue := ⟨"\n          <script setup>\n            import \x7breactive\x7d from \x22vue\x22\n\n            let item = reactive(\x7bid: 1, name: \x22foo\x22\x7d)\n            item.value.name = \x22bar\x22;\n          </script>\n\n          <template>\n            <p>\x7b\x7b item.id \x7d\x7d: \x7b\x7b item.name \x7d\x7d</p>\n          </template>\n        ",
    "\n        - for objects, use `reactive()`\n        - for primitive values (strings, numbers), use `ref()`\n        - have to remember to use ref or reactive - **big gotcha**\n        "⟩

/-- Section 5 of the content model, transcribed verbatim. -/
def entry5 : Entry where
  title := "Derived state"
  description := "Deriving state from other state with calculations. Not too different between Svelte and Vue, so matter of taste."
  svelte := ⟨"\n          <script>\n            let numbers = $state([1, 2, 3, 4])\n            let total = $derived(numbers.reduce((acc, n) => acc + n, 0))\n            // total is 5\n            numbers.push(5);\n            // total is now 10\n          </script>\n\n          <p>The total is: \x7btotal\x7d</p>\n        ",
    "\n          - don\x27t need callback function in $derived (you can if needed)\n        "⟩
  vue := ⟨"\n          <script setup>\n            import \x7breactive, computed\x7d from \x22vue\x22\n            \n            const numbers = reactive([1, 2, 3, 4])\n            const total = computed(() => numbers.reduce((acc, n) => acc + n, 0))\n            // total is 5\n            numbers.value.push(5);\n            // total is now 10\n          </script>\n\n          <template>\n            <p>The total is: \x7b\x7b total \x7d\x7d</p>\n          </template>\n        ",
    "\n          - computed() takes a callback function\n        "⟩

/-- Section 6 of the content model, transcribed verbatim. -/
def entry6 : Entry where
  title := "Components Props"
  description := "Passing values to custom components."
  svelte := ⟨"\n          <!-- Person.svelte -->\n          <script>\n            let \x7bname\x7d = $props()\n          </script>\n\n          <p>My name is \x7bname\x7d</p>\n\n          <!-- usage -->\n          <script>\n            import Person from \x22./Person.svelte\x22\n\n            let name = \x22Dmitry\x22\n          </script>\n\n          <Person name=\x7bname\x7d />\n          <!-- or shorthand: -->\n          <Person \x7bname\x7d />\n        ",
    "\n          - declare props with `$props()`\n          - pass in with `name=\x7bname\x7d` or `\x7bname\x7d` shorthand if prop name and variable name are the same\n        "⟩
  vue := ⟨"\n          <!-- Person.vue -->\n          <script setup>\n            const \x7bname\x7d = defineProps([\x27name\x27])\n          </script>\n\n          <template>\n            <p>My name is \x7b\x7b name \x7d\x7d</p>\n          </template>\n\n          <!-- usage: -->\n          <script setup>\n            import Person from \x22./Person.vue\x22\n\n            let name = \x22Dmitry\x22\n          </script>\n\n          <template>\n            <Person :name=\x22name\x22 />\n            <!-- there is no shorthand -->\n          </template>\n        ",
    "\n          - declare props with `defineProps()`\n        "⟩

/-- Section 7 of the content model, transcribed verbatim. -/
def entry7 : Entry where
  title := "Async (Promises)"
  description := "Waiting for a promise to resolve, displaying loading state, and handling errors."
  svelte := ⟨"\n          <script>\n            let promise = fetch(\x22...\x22)\n          </script>\n\n          \x7b#await promise\x7d\n            <p>Loading...</p>\n          \x7b:then data\x7d\n            <p>\x7bdata\x7d</p>\n          \x7b:catch error\x7d\n            <p>\x7berror\x7d</p>\n          \x7b/await\x7d\n        ",
    "\n          - built-in await block which captures data, error, and loading states\n        "⟩
  vue := ⟨"\n          <script setup>\n            import \x7bref\x7d from \x22vue\x22\n\n            let loading = ref(true)\n            let data = ref(null)\n            let error = ref(null)\n            let promise = fetch(\x22...\x22)\n              .then(d => data.value = d)\n              .catch(e => error.value = e)\n              .finally(() => loading.value = false)\n          </script>\n\n          <p v-if=\x22loading\x22>Loading...</p>\n          <p v-if=\x22data\x22>\x7b\x7b data \x7d\x7d</p>\n          <p v-if=\x22error\x22>\x7b\x7b error \x7d\x7d</p>\n        ",
    "\n          - Vue has no built-in promise support in templates\n          - Have to build something custom with refs\n        "⟩

/-- The content model: the ordered `sections` array of the page. -/
def sections : List Entry :=
  [entry1, entry2, entry3, entry4, entry5, entry6, entry7]

/-- One cell of a section's side-by-side grid: a highlighted code block or a
notes slot (whose content is `none` when the notes conditional is not
taken). -/
inductive Cell where
  | code (markup : String)
  | notes (markup : Option String)
  deriving DecidableEq

/-- The markup composed for one section: heading, rendered description, and
the four-cell side-by-side grid. -/
structure RenderedSection where
  title : String
  description : String
  cells : List Cell
  deriving DecidableEq

/-- The external collaborators consumed by the template: the markdown
renderer and the two highlighter entry points.  Each may fail, modelling a
raising implementation; the template itself contains no handler. -/
structure Collabs where
  markdown : String → Except String String
  highlightSvelte : String → Except String String
  highlightAuto : String → Except String String

/-- Total (non-raising) collaborators, as the contract requires. -/
def liftC (md hs ha : String → String) : Collabs :=
  ⟨fun s => Except.ok (md s), fun s => Except.ok (hs s), fun s => Except.ok (ha s)⟩

/-- Compose one section, following the template body: dedent and
markdown-render the description, dedent the Svelte code and highlight it
with the Svelte grammar, dedent the Vue code and highlight it by
auto-detection, then render each variant's notes only when the notes string
is truthy (non-empty).  A collaborator failure propagates — the template
wraps no call in a handler. -/
def renderSection (c : Collabs) (e : Entry) : Except String RenderedSection := do
  let desc ← c.markdown (dedentStr e.description)
  let sCode ← c.highlightSvelte (dedentStr e.svelte.code)
  let vCode ← c.highlightAuto (dedentStr e.vue.code)
  let sNotes ← if e.svelte.notes = "" then pure none
    else do pure (some (← c.markdown (dedentStr e.svelte.notes)))
  let vNotes ← if e.vue.notes = "" then pure none
    else do pure (some (← c.markdown (dedentStr e.vue.notes)))
  pure ⟨e.title, desc,
    [Cell.code sCode, Cell.code vCode, Cell.notes sNotes, Cell.notes vNotes]⟩

/-- The state threaded through a render pass: the content model being read,
the markup produced so far, and whether the pass aborted on a collaborator
failure. -/
structure RenderState where
  model : List Entry
  output : List RenderedSection
  failed : Bool
  deriving DecidableEq

/-- The template's each-loop over the sections: compose each entry in order,
appending its markup; an uncaught collaborator failure aborts the whole
pass. -/
def renderLoop (c : Collabs) : List Entry → RenderState → RenderState
  | [], st => st
  | e :: rest, st =>
    match renderSection c e with
    | Except.ok r => renderLoop c rest { st with output := st.output ++ [r] }
    | Except.error _ => { st with failed := true }

/-- A full render pass of the page over the content model. -/
def renderPass (c : Collabs) : RenderState :=
  renderLoop c sections { model := sections, output := [], failed := false }

/-- A code cell of the grid. -/
def isCodeCell : Cell → Bool
  | Cell.code _ => true
  | Cell.notes _ => false

/-- A notes slot of the grid. -/
def isNotesCell : Cell → Bool
  | Cell.code _ => false
  | Cell.notes _ => true

/-- The markup composed for one entry when all collaborators are total: the
value `renderSection` produces under `liftC`. -/
def renderedEntry (md hs ha : String → String) (e : Entry) : RenderedSection :=
  ⟨e.title, md (dedentStr e.description),
    [Cell.code (hs (dedentStr e.svelte.code)),
     Cell.code (ha (dedentStr e.vue.code)),
     Cell.notes (if e.svelte.notes = "" then none
       else some (md (dedentStr e.svelte.notes))),
     Cell.notes (if e.vue.notes = "" then none
       else some (md (dedentStr e.vue.notes)))]⟩

theorem splitLines_ne_nil (s : List Char) : splitLines s ≠ [] := by
  induction s with
  | nil => simp [splitLines]
  | cons c cs ih =>
    simp only [splitLines]
    split
    · simp
    · cases h : splitLines cs with
      | nil => exact absurd h ih
      | cons l ls => simp

theorem no_newline_of_mem_splitLines :
    ∀ {s l : List Char}, l ∈ splitLines s → '\n' ∉ l := by
  intro s
  induction s with
  | nil =>
    intro l h
    simp [splitLines] at h
    subst h; simp
  | cons c cs ih =>
    intro l h
    simp only [splitLines] at h
    by_cases hc : c = '\n'
    · rw [if_pos hc] at h
      rcases List.mem_cons.mp h with h | h
      · subst h; simp
      · exact ih h
    · rw [if_neg hc] at h
      cases hsp : splitLines cs with
      | nil => exact absurd hsp (splitLines_ne_nil cs)
      | cons m ms =>
        rw [hsp] at h
        rcases List.mem_cons.mp h with h | h
        · subst h
          intro hmem
          rcases List.mem_cons.mp hmem with h | h
          · exact hc h.symm
          · exact ih (hsp ▸ List.mem_cons_self m ms) h
        · exact ih (hsp ▸ List.mem_cons_of_mem m h)

theorem splitLines_eq_single {l : List Char} (h : '\n' ∉ l) :
    splitLines l = [l] := by
  induction l with
  | nil => rfl
  | cons c cs ih =>
    have hc : ¬ c = '\n' := fun e => h (by simp [e])
    have ih' := ih (fun m => h (List.mem_cons_of_mem _ m))
    simp only [splitLines, if_neg hc, ih']

theorem splitLines_append_cons {l t : List Char} (h : '\n' ∉ l) :
    splitLines (l ++ '\n' :: t) = l :: splitLines t := by
  induction l with
  | nil => simp [splitLines]
  | cons c cs ih =>
    have hc : ¬ c = '\n' := fun e => h (by simp [e])
    have ih' := ih (fun m => h (List.mem_cons_of_mem _ m))
    simp only [List.cons_append, splitLines, if_neg hc, List.append_eq, ih']

theorem splitLines_joinLines :
    ∀ {ls : List (List Char)}, ls ≠ [] → (∀ l ∈ ls, '\n' ∉ l) →
      splitLines (joinLines ls) = ls := by
  intro ls
  induction ls with
  | nil => intro h; exact absurd rfl h
  | cons l rest ih =>
    intro _ hnl
    cases rest with
    | nil =>
      simp only [joinLines]
      exact splitLines_eq_single (hnl l (List.mem_cons_self _ _))
    | cons l2 rest2 =>
      have : joinLines (l :: l2 :: rest2) = l ++ '\n' :: joinLines (l2 :: rest2) := rfl
      rw [this, splitLines_append_cons (hnl l (List.mem_cons_self _ _))]
      rw [ih (by simp) (fun m hm => hnl m (List.mem_cons_of_mem _ hm))]

theorem isBlank_drop {l : List Char} (h : isBlank l = true) (n : Nat) :
    isBlank (l.drop n) = true := by
  rw [isBlank, List.all_eq_true] at h ⊢
  exact fun x hx => h x ((List.drop_sublist n l).subset hx)

theorem drop_of_nonblank :
    ∀ (n : Nat) (l : List Char), isBlank l = false → n ≤ leadingWs l →
      isBlank (l.drop n) = false ∧ leadingWs (l.drop n) = leadingWs l - n := by
  intro n
  induction n with
  | zero => intro l hb _; exact ⟨by simpa using hb, by simp⟩
  | succ n ih =>
    intro l hb hn
    cases l with
    | nil => simp [isBlank] at hb
    | cons c cs =>
      by_cases hw : isWsChar c = true
      · have hlw : leadingWs (c :: cs) = leadingWs cs + 1 := by
          simp [leadingWs, List.takeWhile, hw, Nat.add_comm]
        have hbcs : isBlank cs = false := by
          simp [isBlank, hw] at hb
          simpa [isBlank] using hb
        have hn' : n ≤ leadingWs cs := by omega
        have := ih cs hbcs hn'
        refine ⟨?_, ?_⟩
        · simpa [List.drop] using this.1
        · rw [hlw]
          have : leadingWs ((c :: cs).drop (n + 1)) = leadingWs (cs.drop n) := by
            simp [List.drop]
          rw [this, (ih cs hbcs hn').2]
          omega
      · have : leadingWs (c :: cs) = 0 := by
          simp [leadingWs, List.takeWhile, hw]
        omega


theorem minIndentOpt_eq_none_iff {ls : List (List Char)} :
    minIndentOpt ls = none ↔ ∀ l ∈ ls, isBlank l = true := by
  induction ls with
  | nil => simp [minIndentOpt]
  | cons a rest ih =>
    simp only [minIndentOpt]
    constructor
    · intro h
      by_cases hba : isBlank a = true
      · rw [if_pos hba] at h
        simp only [mergeMin] at h
        intro l hl
        rcases List.mem_cons.mp hl with hl | hl
        · exact hl ▸ hba
        · exact ih.mp h l hl
      · rw [if_neg hba] at h
        cases hr : minIndentOpt rest <;> rw [hr] at h <;> simp [mergeMin] at h
    · intro h
      rw [if_pos (h a (List.mem_cons_self _ _))]
      simp only [mergeMin]
      exact ih.mpr (fun l hl => h l (List.mem_cons_of_mem _ hl))

theorem le_leadingWs_of_minIndentOpt {ls : List (List Char)} {n : Nat}
    (h : minIndentOpt ls = some n) :
    ∀ l ∈ ls, isBlank l = false → n ≤ leadingWs l := by
  induction ls generalizing n with
  | nil => simp [minIndentOpt] at h
  | cons a rest ih =>
    intro l hl hb
    simp only [minIndentOpt] at h
    rcases List.mem_cons.mp hl with hl | hl
    · subst hl
      rw [if_neg (by simp [hb])] at h
      cases hr : minIndentOpt rest <;> rw [hr] at h <;>
        simp only [mergeMin, Option.some.injEq] at h <;> omega
    · by_cases hba : isBlank a = true
      · rw [if_pos hba] at h
        simp only [mergeMin] at h
        exact ih h l hl hb
      · rw [if_neg hba] at h
        cases hr : minIndentOpt rest with
        | none =>
          exact absurd (minIndentOpt_eq_none_iff.mp hr l hl) (by simp [hb])
        | some m =>
          rw [hr] at h
          simp only [mergeMin, Option.some.injEq] at h
          have := ih hr l hl hb
          omega

theorem exists_of_minIndentOpt {ls : List (List Char)} {n : Nat}
    (h : minIndentOpt ls = some n) :
    ∃ l ∈ ls, isBlank l = false ∧ leadingWs l = n := by
  induction ls generalizing n with
  | nil => simp [minIndentOpt] at h
  | cons a rest ih =>
    simp only [minIndentOpt] at h
    by_cases hba : isBlank a = true
    · rw [if_pos hba] at h
      simp only [mergeMin] at h
      obtain ⟨l, hl, hb, hlw⟩ := ih h
      exact ⟨l, List.mem_cons_of_mem _ hl, hb, hlw⟩
    · rw [if_neg hba] at h
      cases hr : minIndentOpt rest with
      | none =>
        rw [hr] at h
        simp only [mergeMin, Option.some.injEq] at h
        exact ⟨a, List.mem_cons_self _ _, by simpa using hba, h⟩
      | some m =>
        rw [hr] at h
        simp only [mergeMin, Option.some.injEq] at h
        rcases Nat.le_total (leadingWs a) m with hle | hle
        · exact ⟨a, List.mem_cons_self _ _, by simpa using hba, by omega⟩
        · obtain ⟨l, hl, hb, hlw⟩ := ih hr
          exact ⟨l, List.mem_cons_of_mem _ hl, hb, by omega⟩

theorem minIndentOpt_map_drop {ls : List (List Char)} {n : Nat}
    (H : ∀ l ∈ ls, isBlank l = false → n ≤ leadingWs l) :
    minIndentOpt (ls.map (fun l => l.drop n)) =
      Option.map (fun m => m - n) (minIndentOpt ls) := by
  induction ls with
  | nil => simp [minIndentOpt]
  | cons a rest ih =>
    have ih' := ih (fun l hl => H l (List.mem_cons_of_mem _ hl))
    simp only [List.map_cons, minIndentOpt, ih']
    by_cases hba : isBlank a = true
    · rw [if_pos hba, if_pos (isBlank_drop hba n)]
      cases minIndentOpt rest <;> simp [mergeMin]
    · have hn : n ≤ leadingWs a := H a (List.mem_cons_self _ _) (by simpa using hba)
      obtain ⟨hb', hlw'⟩ := drop_of_nonblank n a (by simpa using hba) hn
      rw [if_neg hba, if_neg (by simp [hb'])]
      cases hr : minIndentOpt rest with
      | none => simp [mergeMin, hlw']
      | some m =>
        have hm : n ≤ m := by
          obtain ⟨l, hl, hbl, hlwl⟩ := exists_of_minIndentOpt hr
          have := H l (List.mem_cons_of_mem _ hl) hbl
          omega
        simp only [mergeMin, Option.map_some', Option.some.injEq, hlw']
        omega

theorem mem_dropLeadBlank {xs : List (List Char)} {l : List Char}
    (h : l ∈ dropLeadBlank xs) : l ∈ xs := by
  cases xs with
  | nil => simp [dropLeadBlank] at h
  | cons a rest =>
    simp only [dropLeadBlank] at h
    split at h
    · exact List.mem_cons_of_mem _ h
    · exact h

theorem mem_dropTrailBlank :
    ∀ {xs : List (List Char)} {l : List Char}, l ∈ dropTrailBlank xs → l ∈ xs := by
  intro xs
  induction xs with
  | nil => intro l h; simp [dropTrailBlank] at h
  | cons a rest ih =>
    intro l h
    cases rest with
    | nil =>
      simp only [dropTrailBlank] at h
      split at h
      · simp at h
      · exact h
    | cons b rest2 =>
      simp only [dropTrailBlank] at h
      rcases List.mem_cons.mp h with h | h
      · exact h ▸ List.mem_cons_self _ _
      · exact List.mem_cons_of_mem _ (ih h)

theorem minIndentOpt_dropLeadBlank (xs : List (List Char)) :
    minIndentOpt (dropLeadBlank xs) = minIndentOpt xs := by
  cases xs with
  | nil => rfl
  | cons a rest =>
    simp only [dropLeadBlank]
    by_cases hba : isBlank a = true
    · rw [if_pos hba]
      simp [minIndentOpt, if_pos hba, mergeMin]
    · rw [if_neg hba]

theorem minIndentOpt_dropTrailBlank :
    ∀ xs : List (List Char), minIndentOpt (dropTrailBlank xs) = minIndentOpt xs := by
  intro xs
  induction xs with
  | nil => rfl
  | cons a rest ih =>
    cases rest with
    | nil =>
      simp only [dropTrailBlank]
      by_cases hba : isBlank a = true
      · rw [if_pos hba]
        simp [minIndentOpt, if_pos hba, mergeMin]
      · rw [if_neg hba]
    | cons b rest2 =>
      have h1 : dropTrailBlank (a :: b :: rest2) = a :: dropTrailBlank (b :: rest2) := rfl
      have h2 : ∀ xs, minIndentOpt (a :: xs) =
          mergeMin (if isBlank a then none else some (leadingWs a)) (minIndentOpt xs) :=
        fun xs => rfl
      rw [h1, h2, h2, ih]

theorem dropTrailBlank_head :
    ∀ {xs : List (List Char)} {y : List Char} {ys : List (List Char)},
      dropTrailBlank xs = y :: ys → ∃ t, xs = y :: t := by
  intro xs y ys h
  cases xs with
  | nil => simp [dropTrailBlank] at h
  | cons a rest =>
    cases rest with
    | nil =>
      simp only [dropTrailBlank] at h
      split at h
      · simp at h
      · rw [List.cons.injEq] at h
        exact ⟨[], by rw [h.1]⟩
    | cons b rest2 =>
      simp only [dropTrailBlank, List.cons.injEq] at h
      exact ⟨b :: rest2, by rw [h.1]⟩

theorem dropLeadBlank_head_nonblank {xs : List (List Char)} {y : List Char}
    {ys : List (List Char)} (hn : noTwoLeadBlank xs = true)
    (h : dropLeadBlank xs = y :: ys) : isBlank y = false := by
  cases xs with
  | nil => simp [dropLeadBlank] at h
  | cons a rest =>
    simp only [dropLeadBlank] at h
    by_cases hba : isBlank a = true
    · rw [if_pos hba] at h
      cases rest with
      | nil => simp at h
      | cons b rest2 =>
        simp only [noTwoLeadBlank, hba, Bool.true_and, Bool.not_eq_true'] at hn
        rw [List.cons.injEq] at h
        exact h.1 ▸ hn
    · rw [if_neg hba] at h
      rw [List.cons.injEq] at h
      exact h.1 ▸ (by simpa using hba)

theorem noTwoTrailBlank_tail {a : List Char} {rest : List (List Char)}
    (h : noTwoTrailBlank (a :: rest) = true) : noTwoTrailBlank rest = true := by
  cases rest with
  | nil => rfl
  | cons b rest2 =>
    cases rest2 with
    | nil => rfl
    | cons c rest3 => exact h

theorem dropTrailBlank_idem :
    ∀ {xs : List (List Char)}, noTwoTrailBlank xs = true →
      dropTrailBlank (dropTrailBlank xs) = dropTrailBlank xs := by
  intro xs
  induction xs with
  | nil => intro _; rfl
  | cons a rest ih =>
    intro h
    cases rest with
    | nil =>
      simp only [dropTrailBlank]
      by_cases hba : isBlank a = true
      · rw [if_pos hba]; rfl
      · rw [if_neg hba]; simp only [dropTrailBlank]; rw [if_neg hba]
    | cons b rest2 =>
      have hrec : dropTrailBlank (dropTrailBlank (b :: rest2)) = dropTrailBlank (b :: rest2) :=
        ih (noTwoTrailBlank_tail h)
      cases rest2 with
      | nil =>
        simp only [dropTrailBlank]
        by_cases hbb : isBlank b = true
        · rw [if_pos hbb]
          have hba : isBlank a = false := by
            simp only [noTwoTrailBlank, Bool.not_eq_true'] at h
            cases hx : isBlank a
            · rfl
            · rw [hx, hbb] at h; simp at h
          simp only [dropTrailBlank]
          rw [if_neg (by simp [hba])]
        · rw [if_neg hbb]
          simp only [dropTrailBlank]
          rw [if_neg hbb]
      | cons c rest3 =>
        have hstep : dropTrailBlank (a :: b :: c :: rest3) =
            a :: dropTrailBlank (b :: c :: rest3) := rfl
        rw [hstep]
        cases hd : dropTrailBlank (b :: c :: rest3) with
        | nil => simp [dropTrailBlank] at hd
        | cons d ds =>
          have hstep2 : dropTrailBlank (a :: d :: ds) =
              a :: dropTrailBlank (d :: ds) := rfl
          rw [hstep2, ← hd, hrec, hd]

theorem noTwoLeadBlank_map {xs : List (List Char)} {f : List Char → List Char}
    (H : ∀ l ∈ xs, isBlank (f l) = isBlank l) :
    noTwoLeadBlank (xs.map f) = noTwoLeadBlank xs := by
  cases xs with
  | nil => rfl
  | cons a rest =>
    cases rest with
    | nil => rfl
    | cons b rest2 =>
      simp only [List.map_cons, noTwoLeadBlank]
      rw [H a (List.mem_cons_self _ _),
        H b (List.mem_cons_of_mem _ (List.mem_cons_self _ _))]

theorem noTwoTrailBlank_map :
    ∀ {xs : List (List Char)} {f : List Char → List Char},
      (∀ l ∈ xs, isBlank (f l) = isBlank l) →
      noTwoTrailBlank (xs.map f) = noTwoTrailBlank xs := by
  intro xs
  induction xs with
  | nil => intro f _; rfl
  | cons a rest ih =>
    intro f H
    cases rest with
    | nil => rfl
    | cons b rest2 =>
      cases rest2 with
      | nil =>
        simp only [List.map_cons, List.map_nil, noTwoTrailBlank]
        rw [H a (List.mem_cons_self _ _),
          H b (List.mem_cons_of_mem _ (List.mem_cons_self _ _))]
      | cons c rest3 =>
        have h1 : noTwoTrailBlank (List.map f (a :: b :: c :: rest3)) =
            noTwoTrailBlank (List.map f (b :: c :: rest3)) := rfl
        have h2 : noTwoTrailBlank (a :: b :: c :: rest3) =
            noTwoTrailBlank (b :: c :: rest3) := rfl
        rw [h1, h2, ih (fun l hl => H l (List.mem_cons_of_mem _ hl))]

theorem dedent_nil : dedent [] = [] := rfl

theorem dedent_idem_list (s : List Char)
    (h1 : noTwoLeadBlank (splitLines s) = true)
    (h2 : noTwoTrailBlank (splitLines s) = true) :
    dedent (dedent s) = dedent s := by
  cases hmin : minIndentOpt (splitLines s) with
  | none =>
    have hall := minIndentOpt_eq_none_iff.mp hmin
    have hmz : minIndent (splitLines s) = 0 := by rw [minIndent, hmin]; rfl
    have hD : dedentLines s = splitLines s := by
      rw [dedentLines, hmz]; simp
    cases hsp : splitLines s with
    | nil => exact absurd hsp (splitLines_ne_nil s)
    | cons a rest =>
      cases rest with
      | nil =>
        have hba : isBlank a = true := hall a (hsp ▸ List.mem_cons_self _ _)
        have hde : dedent s = [] := by
          rw [dedent, hD, hsp]
          simp [dropLeadBlank, hba, dropTrailBlank, joinLines]
        rw [hde, dedent_nil]
      | cons b rest2 =>
        have hba := hall a (hsp ▸ List.mem_cons_self _ _)
        have hbb := hall b (hsp ▸ List.mem_cons_of_mem _ (List.mem_cons_self _ _))
        rw [hsp] at h1
        simp [noTwoLeadBlank, hba, hbb] at h1
  | some n0 =>
    have Hbound := le_leadingWs_of_minIndentOpt hmin
    have hmz : minIndent (splitLines s) = n0 := by rw [minIndent, hmin]; rfl
    have hD : dedentLines s = (splitLines s).map (fun l => l.drop n0) := by
      rw [dedentLines, hmz]
    have Hmask : ∀ l ∈ splitLines s, isBlank (l.drop n0) = isBlank l := by
      intro l hl
      cases hbl : isBlank l with
      | true => exact isBlank_drop hbl n0
      | false => exact (drop_of_nonblank n0 l hbl (Hbound l hl hbl)).1
    have hDopt : minIndentOpt (dedentLines s) = some 0 := by
      rw [hD, minIndentOpt_map_drop Hbound, hmin]
      simp
    have houtopt :
        minIndentOpt (dropTrailBlank (dropLeadBlank (dedentLines s))) = some 0 := by
      rw [minIndentOpt_dropTrailBlank, minIndentOpt_dropLeadBlank, hDopt]
    cases hout : dropTrailBlank (dropLeadBlank (dedentLines s)) with
    | nil => rw [hout] at houtopt; simp [minIndentOpt] at houtopt
    | cons o os =>
      obtain ⟨t, hwt⟩ := dropTrailBlank_head hout
      have hnlD : noTwoLeadBlank (dedentLines s) = true := by
        rw [hD, noTwoLeadBlank_map Hmask]; exact h1
      have ho : isBlank o = false := dropLeadBlank_head_nonblank hnlD hwt
      have h0 : minIndentOpt (o :: os) = some 0 := hout ▸ houtopt
      have hnl : ∀ l ∈ o :: os, '\n' ∉ l := by
        intro l hl
        have hm1 : l ∈ dropTrailBlank (dropLeadBlank (dedentLines s)) := hout ▸ hl
        have hm2 : l ∈ dedentLines s := mem_dropLeadBlank (mem_dropTrailBlank hm1)
        rw [hD] at hm2
        obtain ⟨l', hl', hll⟩ := List.mem_map.mp hm2
        intro hmem
        rw [← hll] at hmem
        exact no_newline_of_mem_splitLines hl' ((List.drop_sublist _ _).subset hmem)
      have hsj : splitLines (joinLines (o :: os)) = o :: os :=
        splitLines_joinLines (by simp) hnl
      have hD2 : dedentLines (joinLines (o :: os)) = o :: os := by
        rw [dedentLines, hsj, minIndent, h0]
        simp
      have hlead : dropLeadBlank (o :: os) = o :: os := by
        simp [dropLeadBlank, ho]
      have htrailW : noTwoTrailBlank (dropLeadBlank (dedentLines s)) = true := by
        have hA : noTwoTrailBlank (dedentLines s) = true := by
          rw [hD, noTwoTrailBlank_map Hmask]; exact h2
        cases hE : dedentLines s with
        | nil => rfl
        | cons a rest =>
          simp only [dropLeadBlank]
          split
          · exact noTwoTrailBlank_tail (hE ▸ hA)
          · exact hE ▸ hA
      have htrail : dropTrailBlank (o :: os) = o :: os := by
        rw [← hout, dropTrailBlank_idem htrailW, hout]
      have hds : dedent s = joinLines (o :: os) := by rw [dedent, hout]
      rw [hds, dedent, hD2, hlead, htrail]

theorem dropLeadBlank_decomp (xs : List (List Char)) :
    ∃ pre, xs = pre ++ dropLeadBlank xs ∧ pre.length ≤ 1 ∧
      (∀ l ∈ pre, isBlank l = true) ∧
      (pre = [] → ∀ a, xs.head? = some a → isBlank a = false) := by
  cases xs with
  | nil => exact ⟨[], rfl, by simp, by simp, by simp⟩
  | cons a rest =>
    by_cases hba : isBlank a = true
    · refine ⟨[a], ?_, by simp, by simpa, by simp⟩
      simp [dropLeadBlank, hba]
    · refine ⟨[], ?_, by simp, by simp, ?_⟩
      · simp [dropLeadBlank, hba]
      · intro _ x hx
        simp only [List.head?_cons, Option.some.injEq] at hx
        rw [← hx]
        simpa using hba

theorem dropTrailBlank_decomp :
    ∀ xs : List (List Char),
      ∃ suf, xs = dropTrailBlank xs ++ suf ∧ suf.length ≤ 1 ∧
        (∀ l ∈ suf, isBlank l = true) ∧
        (suf = [] → ∀ a, (dropTrailBlank xs).getLast? = some a → isBlank a = false) := by
  intro xs
  induction xs with
  | nil =>
    refine ⟨[], rfl, by simp, by simp, ?_⟩
    intro _ a ha
    simp [dropTrailBlank] at ha
  | cons a rest ih =>
    cases rest with
    | nil =>
      by_cases hba : isBlank a = true
      · refine ⟨[a], ?_, by simp, by simpa, ?_⟩
        · simp [dropTrailBlank, hba]
        · intro h; simp at h
      · refine ⟨[], by simp [dropTrailBlank, hba], by simp, by simp, ?_⟩
        intro _ x hx
        simp only [dropTrailBlank, if_neg hba, List.getLast?_singleton,
          Option.some.injEq] at hx
        rw [← hx]
        simpa using hba
    | cons b rest2 =>
      obtain ⟨suf, heq, hlen, hblank, hlast⟩ := ih
      have hstep : dropTrailBlank (a :: b :: rest2) = a :: dropTrailBlank (b :: rest2) := rfl
      refine ⟨suf, ?_, hlen, hblank, ?_⟩
      · rw [hstep, List.cons_append, ← heq]
      · intro hs x hx
        rw [hstep] at hx
        cases hw : dropTrailBlank (b :: rest2) with
        | nil =>
          rw [hs, hw] at heq
          simp at heq
        | cons d ds =>
          rw [hw, List.getLast?_cons_cons] at hx
          refine hlast hs x ?_
          rw [hw]
          exact hx

theorem no_newline_of_isBlank {l : List Char} (h : isBlank l = true) : '\n' ∉ l := by
  rw [isBlank, List.all_eq_true] at h
  intro hm
  have := h _ hm
  simp [isWsChar] at this

/-- Claim C1, counterexample: normalization is not idempotent on the text
`"\n\nfoo"` — the first pass removes only one of the two leading blank
lines, the second pass removes the other. -/
theorem dedent_not_idempotent_cex :
    dedentStr (dedentStr "\n\nfoo") ≠ dedentStr "\n\nfoo" := by decide

/-- Claim C1 (amended): normalization is idempotent for every RawText that
does not begin with two blank lines and does not end with two blank lines
(in particular for every literal following the authoring convention of a
single leading and a single trailing newline); on texts with stacked
boundary blank lines the single-line trim removes one more line per pass. -/
theorem dedent_idempotent_of_single_boundary_blanks (s : String)
    (h1 : noTwoLeadBlank (splitLines s.data) = true)
    (h2 : noTwoTrailBlank (splitLines s.data) = true) :
    dedentStr (dedentStr s) = dedentStr s := by
  show String.mk (dedent (dedent s.data)) = String.mk (dedent s.data)
  rw [dedent_idem_list s.data h1 h2]

/-- Claim C1, witness: the amended idempotence theorem applied to a concrete
conventional literal. -/
theorem dedent_idempotent_witness :
    dedentStr (dedentStr "\n    foo\n    bar") = dedentStr "\n    foo\n    bar" :=
  dedent_idempotent_of_single_boundary_blanks "\n    foo\n    bar"
    (by decide) (by decide)

/-- Claim C2: after stripping the common indentation, the normalizer removes
at most a single leading and at most a single trailing blank line — each
removed exactly when present — and the output is the remaining contiguous
block of dedented lines, so every interior blank line is kept in place. -/
theorem dedent_trims_single_boundary_blank_lines (s : String) :
    ∃ pre mid suf,
      dedentLines s.data = pre ++ mid ++ suf ∧
      (dedentStr s).data = joinLines mid ∧
      pre.length ≤ 1 ∧ suf.length ≤ 1 ∧
      (∀ l ∈ pre, isBlank l = true) ∧ (∀ l ∈ suf, isBlank l = true) ∧
      (pre = [] → ∀ a, (dedentLines s.data).head? = some a → isBlank a = false) ∧
      (suf = [] → ∀ a, mid.getLast? = some a → isBlank a = false) := by
  obtain ⟨pre, hpe, hpl, hpb, hph⟩ := dropLeadBlank_decomp (dedentLines s.data)
  obtain ⟨suf, hse, hsl, hsb, hsh⟩ :=
    dropTrailBlank_decomp (dropLeadBlank (dedentLines s.data))
  refine ⟨pre, dropTrailBlank (dropLeadBlank (dedentLines s.data)), suf,
    ?_, rfl, hpl, hsl, hpb, hsb, hph, hsh⟩
  rw [List.append_assoc, ← hse, ← hpe]

/-- Claim C3: on the spec's reference input, whose lines are
`["", "    foo", "    bar"]`, normalization yields exactly `"foo\nbar"`. -/
theorem dedent_reference_example :
    dedentStr "\n    foo\n    bar" = "foo\nbar" := by decide

/-- Claim C8, counterexample: the text `"\n\n\n"` consists only of blank
lines, yet it does not normalize to the empty string — only one leading and
one trailing blank line are trimmed, leaving `"\n"`. -/
theorem dedent_blank_text_cex :
    (∀ l ∈ splitLines ("\n\n\n" : String).data, isBlank l = true) ∧
      dedentStr "\n\n\n" ≠ "" := by decide

/-- Claim C8 (amended): normalization is a total function (it is defined for
every string and never raises), and a text consisting only of blank lines
normalizes to a text consisting only of blank lines; it normalizes to the
empty string whenever it has at most two lines.  (Texts of three or more
blank lines keep their interior blank lines, so they need not collapse to
empty.) -/
theorem dedent_total_blank_edge (s : String)
    (h : ∀ l ∈ splitLines s.data, isBlank l = true) :
    (∀ l ∈ splitLines (dedentStr s).data, isBlank l = true) ∧
      ((splitLines s.data).length ≤ 2 → dedentStr s = "") := by
  have hmin : minIndentOpt (splitLines s.data) = none := minIndentOpt_eq_none_iff.mpr h
  have hmz : minIndent (splitLines s.data) = 0 := by rw [minIndent, hmin]; rfl
  have hD : dedentLines s.data = splitLines s.data := by
    rw [dedentLines, hmz]; simp
  have hob : ∀ l ∈ dropTrailBlank (dropLeadBlank (dedentLines s.data)),
      isBlank l = true := by
    intro l hl
    have hm := mem_dropLeadBlank (mem_dropTrailBlank hl)
    rw [hD] at hm
    exact h l hm
  constructor
  · cases hout : dropTrailBlank (dropLeadBlank (dedentLines s.data)) with
    | nil =>
      have hdat : (dedentStr s).data = [] := by
        show dedent s.data = []
        rw [dedent, hout]
        rfl
      rw [hdat]
      intro l hl
      simp only [splitLines, List.mem_singleton] at hl
      rw [hl]
      rfl
    | cons o os =>
      have hnl : ∀ l ∈ o :: os, '\n' ∉ l :=
        fun l hl => no_newline_of_isBlank (hob l (hout ▸ hl))
      have hdat : (dedentStr s).data = joinLines (o :: os) := by
        show dedent s.data = _
        rw [dedent, hout]
      rw [hdat, splitLines_joinLines (by simp) hnl]
      intro l hl
      exact hob l (hout ▸ hl)
  · intro hlen
    cases hsp : splitLines s.data with
    | nil => exact absurd hsp (splitLines_ne_nil _)
    | cons a rest =>
      have hba : isBlank a = true := h a (hsp ▸ List.mem_cons_self _ _)
      cases rest with
      | nil =>
        have hnil : dedent s.data = [] := by
          rw [dedent, hD, hsp]
          simp [dropLeadBlank, hba, dropTrailBlank, joinLines]
        show String.mk (dedent s.data) = ""
        rw [hnil]
      | cons b rest2 =>
        cases rest2 with
        | nil =>
          have hbb : isBlank b = true :=
            h b (hsp ▸ List.mem_cons_of_mem _ (List.mem_cons_self _ _))
          have hnil : dedent s.data = [] := by
            rw [dedent, hD, hsp]
            simp [dropLeadBlank, hba, dropTrailBlank, hbb, joinLines]
          show String.mk (dedent s.data) = ""
          rw [hnil]
        | cons c rest3 =>
          rw [hsp] at hlen
          simp at hlen

/-- Claim C8, witness: the amended theorem applied to the one-newline blank
text, which normalizes to the empty string. -/
theorem dedent_total_blank_edge_witness :
    (∀ l ∈ splitLines ("\n" : String).data, isBlank l = true) ∧
      ((∀ l ∈ splitLines (dedentStr "\n").data, isBlank l = true) ∧
        ((splitLines ("\n" : String).data).length ≤ 2 → dedentStr "\n" = "")) :=
  ⟨by decide, dedent_total_blank_edge "\n" (by decide)⟩

theorem renderSection_liftC (md hs ha : String → String) (e : Entry) :
    renderSection (liftC md hs ha) e = Except.ok (renderedEntry md hs ha e) := by
  unfold renderSection liftC renderedEntry
  by_cases h1 : e.svelte.notes = "" <;> by_cases h2 : e.vue.notes = "" <;>
    simp [h1, h2, Bind.bind, Except.bind, pure, Except.pure]

theorem renderLoop_model (c : Collabs) :
    ∀ (l : List Entry) (st : RenderState), (renderLoop c l st).model = st.model := by
  intro l
  induction l with
  | nil => intro st; rfl
  | cons e rest ih =>
    intro st
    simp only [renderLoop]
    cases renderSection c e with
    | ok r => exact ih _
    | error _ => rfl

theorem renderLoop_liftC (md hs ha : String → String) :
    ∀ (l : List Entry) (st : RenderState),
      renderLoop (liftC md hs ha) l st =
        { model := st.model,
          output := st.output ++ l.map (renderedEntry md hs ha),
          failed := st.failed } := by
  intro l
  induction l with
  | nil => intro st; cases st; simp [renderLoop]
  | cons e rest ih =>
    intro st
    simp only [renderLoop, renderSection_liftC]
    rw [ih]
    simp

theorem renderPass_liftC (md hs ha : String → String) :
    renderPass (liftC md hs ha) =
      { model := sections,
        output := sections.map (renderedEntry md hs ha),
        failed := false } := by
  show renderLoop (liftC md hs ha) sections ⟨sections, [], false⟩ = _
  rw [renderLoop_liftC]
  simp

/-- Claim C4: for every entry of the content model the two variants are
highlighted asymmetrically — the Svelte variant's normalized code goes
through the language-specific highlighter, the Vue variant's normalized code
through the auto-detecting one. -/
theorem variant_highlighting_asymmetric (e : Entry) (_he : e ∈ sections)
    (md hs ha : String → String) :
    ∃ n1 n2, renderSection (liftC md hs ha) e = Except.ok
      ⟨e.title, md (dedentStr e.description),
        [Cell.code (hs (dedentStr e.svelte.code)),
         Cell.code (ha (dedentStr e.vue.code)),
         Cell.notes n1, Cell.notes n2]⟩ :=
  ⟨_, _, renderSection_liftC md hs ha e⟩

/-- Claim C4, witness: the asymmetry theorem applied to the first entry with
identity collaborators. -/
theorem variant_highlighting_asymmetric_witness :
    ∃ n1 n2, renderSection (liftC id id id) entry1 = Except.ok
      ⟨entry1.title, id (dedentStr entry1.description),
        [Cell.code (id (dedentStr entry1.svelte.code)),
         Cell.code (id (dedentStr entry1.vue.code)),
         Cell.notes n1, Cell.notes n2]⟩ :=
  variant_highlighting_asymmetric entry1
    (by unfold sections; exact List.mem_cons_self _ _) id id id

/-- Claim C5: the sequence of rendered entries' titles equals the content
model's title sequence, element for element and in order. -/
theorem rendered_titles_match_model (md hs ha : String → String) :
    (renderPass (liftC md hs ha)).output.map RenderedSection.title =
      sections.map Entry.title := by
  rw [renderPass_liftC, List.map_map]
  rfl

/-- Claim C6: every rendered entry's grid holds exactly two code cells and
exactly two notes slots. -/
theorem grid_has_two_code_and_two_notes_cells (md hs ha : String → String)
    (r : RenderedSection) (hr : r ∈ (renderPass (liftC md hs ha)).output) :
    r.cells.countP isCodeCell = 2 ∧ r.cells.countP isNotesCell = 2 := by
  rw [renderPass_liftC] at hr
  obtain ⟨e, _, rfl⟩ := List.mem_map.mp hr
  constructor <;>
    simp [renderedEntry, List.countP_cons, isCodeCell, isNotesCell]

/-- Claim C6, witness: the cell-count theorem applied to the first rendered
entry of an identity-collaborator pass. -/
theorem grid_cells_witness :
    (renderedEntry id id id entry1).cells.countP isCodeCell = 2 ∧
      (renderedEntry id id id entry1).cells.countP isNotesCell = 2 :=
  grid_has_two_code_and_two_notes_cells id id id (renderedEntry id id id entry1)
    (by
      rw [renderPass_liftC id id id]
      exact List.mem_map_of_mem _ (by unfold sections; exact List.mem_cons_self _ _))

/-- Claim C9: a render pass never mutates the content model — the model
component of the final state equals `sections` for every choice of
collaborators, raising or not. -/
theorem render_pass_preserves_model (c : Collabs) :
    (renderPass c).model = sections := by
  show (renderLoop c sections ⟨sections, [], false⟩).model = sections
  exact renderLoop_model c sections _

/-- Claim C10: in the actual content model every variant's notes string is
present and non-empty, so both notes slots of every entry render markdown —
the empty-notes branch is never taken on this data. -/
theorem notes_always_present_nonempty (e : Entry) (he : e ∈ sections)
    (md hs ha : String → String) :
    (e.svelte.notes ≠ "" ∧ e.vue.notes ≠ "") ∧
    ∃ r, renderSection (liftC md hs ha) e = Except.ok r ∧
      (∃ x, r.cells[2]? = some (Cell.notes (some x))) ∧
      (∃ y, r.cells[3]? = some (Cell.notes (some y))) := by
  have hne' : ∀ x ∈ sections, x.svelte.notes ≠ "" ∧ x.vue.notes ≠ "" := by decide
  have hne := hne' e he
  refine ⟨hne, renderedEntry md hs ha e, renderSection_liftC md hs ha e, ?_, ?_⟩
  · exact ⟨md (dedentStr e.svelte.notes), by simp [renderedEntry, hne.1]⟩
  · exact ⟨md (dedentStr e.vue.notes), by simp [renderedEntry, hne.2]⟩

/-- Claim C10, witness: the notes theorem applied to the first entry with
identity collaborators. -/
theorem notes_always_present_nonempty_witness :
    (entry1.svelte.notes ≠ "" ∧ entry1.vue.notes ≠ "") ∧
    ∃ r, renderSection (liftC id id id) entry1 = Except.ok r ∧
      (∃ x, r.cells[2]? = some (Cell.notes (some x))) ∧
      (∃ y, r.cells[3]? = some (Cell.notes (some y))) :=
  notes_always_present_nonempty entry1
    (by unfold sections; exact List.mem_cons_self _ _) id id id

/-- Claim C7, counterexample: replacing the Svelte highlighter with one that
raises on every input makes the render pass abort at the first entry — no
output is produced for that entry (or any other), contradicting the claimed
catch-and-degrade behaviour.  The template wraps no collaborator call in a
handler. -/
theorem raising_highlighter_aborts_render :
    (renderPass ⟨fun s => Except.ok s, fun _ => Except.error "raise",
      fun s => Except.ok s⟩).output = [] ∧
    (renderPass ⟨fun s => Except.ok s, fun _ => Except.error "raise",
      fun s => Except.ok s⟩).failed = true := by
  constructor <;> rfl

/-- Claim C7 (amended): the composer has no failure handling of its own —
with total (non-raising) collaborators the pass completes with one output
per entry, while a raising collaborator aborts the pass (see the
counterexample). -/
theorem composer_total_only_with_total_collaborators (md hs ha : String → String) :
    (renderPass (liftC md hs ha)).failed = false ∧
    (renderPass (liftC md hs ha)).output.length = sections.length := by
  rw [renderPass_liftC]
  simp
